/-
  Verification of the emerge remote object store (radiantone/emerge).

  Shallow embedding of the Python sources:
    - src/emerge/core/client.py  (Client: store/get/getobject/proxy/list/...)
    - src/emerge/cli/__init__.py (CLI commands: mkdir, ls, rm, ...)
    - src/emerge/example/client.py (MyClass, InventoryItem and the example scenario)
  The node server (emerge/node/server.py) is not part of the shown sources;
  where a claim depends on it, the behaviour is modelled from the spec and the
  definition's doc comment says so.
-/
import Mathlib

namespace Emerge

/-! ## Python string primitives

The CLI decides entry kinds with `fname.find("dir") == 0` and checks path
absoluteness with `directory[0] != "/"`.  We embed Python's `str.find`
(first index of the substring, `-1` when absent) and indexing faithfully. -/

/-- Helper for `pyFind`: first index `≥ i` at which `needle` occurs in the
remaining character list, scanning left to right as CPython does. -/
def pyFindAux (needle : List Char) : List Char → Nat → Option Nat
  | [], i => if needle.isEmpty then some i else none
  | c :: rest, i =>
    if needle.isPrefixOf (c :: rest) then some i
    else pyFindAux needle rest (i + 1)

/-- Python `s.startswith(pre)`, as a test on the character lists. -/
def pyStartsWith (s pre : String) : Bool :=
  pre.data.isPrefixOf s.data

/-- Python `s.find(needle)`: index of the first occurrence of `needle` in `s`,
`-1` if `needle` does not occur. -/
def pyFind (s needle : String) : Int :=
  match pyFindAux needle.data s.data 0 with
  | some i => (i : Int)
  | none => -1

/-- Any index returned by `pyFindAux` is at least the running index `i`. -/
theorem pyFindAux_le (needle : List Char) :
    ∀ (l : List Char) (i j : Nat), pyFindAux needle l i = some j → i ≤ j := by
  intro l
  induction l with
  | nil =>
    intro i j h
    unfold pyFindAux at h
    by_cases hn : needle.isEmpty <;> simp [hn] at h
    omega
  | cons c rest ih =>
    intro i j h
    unfold pyFindAux at h
    by_cases hp : needle.isPrefixOf (c :: rest)
    · simp [hp] at h; omega
    · simp [hp] at h
      have := ih (i + 1) j h
      omega

/-- Python's `s.find(needle) == 0` is exactly the test that `needle` is a
prefix of `s`. -/
theorem pyFind_eq_zero (s needle : String) :
    (pyFind s needle == 0) = needle.data.isPrefixOf s.data := by
  unfold pyFind
  cases hl : s.data with
  | nil =>
    cases hn : needle.data with
    | nil => simp [pyFindAux, List.isEmpty, List.isPrefixOf]
    | cons c cs => simp [pyFindAux, List.isEmpty, List.isPrefixOf]
  | cons c rest =>
    by_cases hp : needle.data.isPrefixOf (c :: rest)
    · simp [pyFindAux, hp]
    · simp only [pyFindAux, hp, if_false]
      cases hfind : pyFindAux needle.data rest 1 with
      | none => simp [hp]
      | some j =>
        have hj := pyFindAux_le needle.data rest 1 j hfind
        have : ((j : Int) == 0) = false := by
          simp only [beq_eq_false_iff_ne, ne_eq]
          intro hij
          omega
        simp [this, hp]

/-! ## CLI `ls`: entry-kind classification (src/emerge/cli/__init__.py:206-213)

`ls` receives the result of `client.list` as a list of plain strings and
classifies each entry `fname` with `fname.find("dir") == 0`; the entries
`"dir:/"` and `"dir:/registry"` are skipped (`continue`) before anything is
printed. -/

/-- Embedding of the `ls` kind test (line 209): `fname.find("dir") == 0`. -/
def lsIsDirEntry (fname : String) : Bool :=
  pyFind fname "dir" == 0

/-- Embedding of the `ls` skip rule (lines 209-211): a dir-classified entry
named exactly `"dir:/"` or `"dir:/registry"` is skipped. -/
def lsSkipsEntry (fname : String) : Bool :=
  lsIsDirEntry fname && (fname == "dir:/" || fname == "dir:/registry")

/-- Insertion of a string into a sorted list (ascending), used to model
Python's `sorted`. -/
def insertSorted (x : String) : List String → List String
  | [] => [x]
  | y :: ys => if x < y then x :: y :: ys else y :: insertSorted x ys

/-- Model of Python `sorted(files)` on strings. -/
def pySorted : List String → List String
  | [] => []
  | x :: xs => insertSorted x (pySorted xs)

/-- Embedding of `ls` line 206: `files = reversed(sorted(files))`. -/
def lsEntryOrder (files : List String) : List String :=
  (pySorted files).reverse

/-- The entries the `ls` loop actually displays: the iteration order of
lines 206-213 with the skipped entries removed (every non-skipped entry
falls through to a `print`). -/
def lsShownEntries (files : List String) : List String :=
  (lsEntryOrder files).filter (fun f => !(lsSkipsEntry f))

/-! ## CLI `mkdir` (src/emerge/cli/__init__.py:139-152) -/

/-- Outcome of one `mkdir` CLI invocation. -/
inductive CliMkdirOutcome where
  /-- Python raised `IndexError` at `directory[0]` (the argument was the empty string);
  no message is printed and no request is issued. -/
  | indexErrorCrash
  /-- The CLI echoed "Directory path must be absolute path e.g. /some/dir"
  and returned without contacting the node. -/
  | absolutePathMessage
  /-- The call `client.mkdir(directory)` was made: the request was issued to the
  node (a `RemoteError` from the node is caught and its message printed). -/
  | requestIssued (directory : String)
deriving DecidableEq, Repr

/-- Embedding of the `mkdir` command body: `if directory[0] != "/":` echo an
error and return, else issue `client.mkdir(directory)`.  Python's
`directory[0]` raises `IndexError` on an empty argument. -/
def cliMkdir (directory : String) : CliMkdirOutcome :=
  match directory.data with
  | [] => CliMkdirOutcome.indexErrorCrash
  | c :: _ =>
    if c ≠ '/' then CliMkdirOutcome.absolutePathMessage
    else CliMkdirOutcome.requestIssued directory

/-! ### Claim C3 -/

/-- C3 counterexample: `list` entries carry no kind tag — they are plain
strings — and the `ls` consumer tells directories from objects with a
string-prefix test on the entry name: names that differ only in their
leading characters are classified differently, and an object whose name
merely starts with the letters "dir" (here "dirt") is classified as a
directory. -/
theorem ls_kind_is_prefix_heuristic :
    lsIsDirEntry "dir:/classes" = true ∧
    lsIsDirEntry "/inventory/widget1" = false ∧
    lsIsDirEntry "dirt" = true := by
  constructor
  · rfl
  · constructor <;> rfl

/-- C3 (amended): the entries returned by `list` are plain strings with no
explicit kind tag; the `ls` consumer classifies an entry as a directory
exactly when its name starts with the characters "dir"
(`fname.find("dir") == 0` is equivalent to a string-prefix test). -/
theorem lsIsDirEntry_eq_prefix_test (fname : String) :
    lsIsDirEntry fname = "dir".data.isPrefixOf fname.data := by
  unfold lsIsDirEntry
  exact pyFind_eq_zero fname "dir"

/-! ### Claim C5 -/

/-- C5 counterexample: the empty string is a path argument that does not
begin with `/`, yet `mkdir ""` does not fail with the InvalidPath message —
`directory[0]` raises `IndexError` instead. -/
theorem cliMkdir_empty_crashes :
    ¬ ("".data.head? = some '/') ∧
    cliMkdir "" ≠ CliMkdirOutcome.absolutePathMessage := by
  constructor
  · simp
  · decide

/-- C5 (amended): for every **non-empty** path argument that does not begin
with `/`, the `mkdir` command fails with the InvalidPath message and issues
no request; for every path argument that begins with `/` the mkdir request
is issued to the node.  (The empty argument instead crashes with
`IndexError`, see the counterexample.) -/
theorem cliMkdir_cases (d : String) (hne : d.data ≠ []) :
    (d.data.head? ≠ some '/' → cliMkdir d = CliMkdirOutcome.absolutePathMessage) ∧
    (d.data.head? = some '/' → cliMkdir d = CliMkdirOutcome.requestIssued d) := by
  unfold cliMkdir
  cases hd : d.data with
  | nil => exact absurd hd hne
  | cons c rest =>
    constructor
    · intro h
      have hc : c ≠ '/' := by
        intro he
        exact h (by rw [he]; rfl)
      simp [hc]
    · intro h
      have hc : c = '/' := by
        simpa using h
      simp [hc]

/-- Witness for `cliMkdir_cases`: instantiated at the concrete non-absolute
argument "classes" and at the concrete absolute argument "/classes". -/
theorem cliMkdir_cases_witness :
    (cliMkdir "classes" = CliMkdirOutcome.absolutePathMessage) ∧
    (cliMkdir "/classes" = CliMkdirOutcome.requestIssued "/classes") := by
  constructor
  · exact (cliMkdir_cases "classes" (by decide)).1 (by decide)
  · exact (cliMkdir_cases "/classes" (by decide)).2 (by decide)

/-! ## Transported values and wire calls

`FieldVal` models a Python value as it travels in record fields and call
arguments; `FieldVal.pickled v` is the `dill.dumps` blob containing the
serialization of `v`.  `RpcCall` models one wire call issued through the
zerorpc connection held by `Client`. -/

/-- A transported Python value: a primitive, or a dill blob. -/
inductive FieldVal where
  | str (s : String)
  | int (n : Int)
  | pickled (v : FieldVal)
deriving DecidableEq, Repr

/-- One remote call issued on the zerorpc connection. `execute` records the
argument list actually transmitted for the remote method (beyond the id and
method name). -/
inductive RpcCall where
  | getobject (path : String) (nodill : Bool)
  | execute (oid : String) (method : String) (args : List FieldVal)
deriving DecidableEq, Repr

/-! ## Client.proxy (src/emerge/core/client.py:20-46)

`proxy` fetches the remote object once (`self.getobject(path, False)`),
computes the public callable attributes of its type, and builds a fresh
class whose dict maps `__getattr__` to `partial(getatt, self, path)` and
every public method name `m` to `partial(invoke, self, path, m)`.
`functools.partial` objects are not descriptors, so an instance attribute
access that finds a partial in the class dict returns it unbound, and a
missing name triggers the `__getattr__` hook with the name as the single
argument. -/

/-- The remote object's type as seen by `dir(type(file))` together with the
`callable(getattr(type(file), attribute))` test: attribute names paired with
their callability. -/
structure PyType where
  attrs : List (String × Bool)
deriving DecidableEq, Repr

/-- Embedding of the `method_list` comprehension (lines 22-27): attributes of
the type that are callable and do not start with an underscore. -/
def method_list (t : PyType) : List String :=
  (t.attrs.filter (fun a => a.2 && (pyStartsWith a.1 "_" == false))).map (fun a => a.1)

/-- A value stored in the generated class dict `funcs`. -/
inductive Slot where
  /-- Slot holding `partial(getatt, self, path)`: on call with a name, fetches the whole
  object with `client.getobject(path, False)`, `dill.loads` it, and takes
  the attribute locally. -/
  | getattrSlot
  /-- Slot holding `partial(invoke, self, path, method)`: on call, issues
  `client.execute(path, method)`. -/
  | invokeSlot (method : String)
deriving DecidableEq, Repr

/-- The generated class dict `funcs` (lines 29-42): `__getattr__` first, then
one entry per public method name.  A Python dict maps each key to the value
of its last assignment; since every assignment here stores a value determined
by its key, that mapping is this association list under first-match lookup. -/
def buildFuncs (t : PyType) : List (String × Slot) :=
  ("__getattr__", Slot.getattrSlot) ::
    (method_list t).map (fun m => (m, Slot.invokeSlot m))

/-- First-match lookup in a class dict. -/
def dictLookup (d : List (String × Slot)) (k : String) : Option Slot :=
  (d.find? (fun kv => kv.1 == k)).map (fun kv => kv.2)

/-- The stand-in returned by `Client.proxy`: an instance of the generated
`ClassProxy` type.  Its only data are the captured path and the generated
class dict — the partials capture nothing else. -/
structure ClassProxy where
  path : String
  funcs : List (String × Slot)
deriving DecidableEq, Repr

/-- Embedding of `Client.proxy` (lines 20-46): the wire calls performed at
construction time (the single introspection fetch of line 21) paired with
the constructed stand-in. -/
def Client.proxy (path : String) (t : PyType) : List RpcCall × ClassProxy :=
  ([RpcCall.getobject path false], ⟨path, buildFuncs t⟩)

/-- Wire calls performed by an attribute read `proxy.name`: a name found in
the class dict yields the stored partial locally (no wire call); a missing
name fires the `__getattr__` hook, whose body `getatt` issues exactly one
`client.getobject(path, False)` and then takes the attribute locally on the
decoded object. -/
def proxyAttrReadTrace (p : ClassProxy) (name : String) : List RpcCall :=
  match dictLookup p.funcs name with
  | some _ => []
  | none => [RpcCall.getobject p.path false]

/-- A Python-level error raised on the client before any wire call. -/
inductive PyCallError where
  /-- wrong arity for the underlying function of a `partial`. -/
  | typeError
deriving DecidableEq, Repr

/-- Wire calls performed by a call `proxy.name(args)`.  A method slot holds
`partial(invoke, self, path, m)` whose target `invoke(self, oid, method)`
has all three parameters frozen: calling it with any extra argument raises
`TypeError` locally, before any wire call; with no arguments it issues
exactly `client.execute(path, m)` — transmitting no method arguments.  The
`__getattr__` slot's target `getatt(self, oid, name)` has one free
parameter.  A name missing from the class dict is first fetched through the
hook (one `getobject`); the fetched attribute is then called locally. -/
def proxyInvoke (p : ClassProxy) (name : String) (args : List FieldVal) :
    Except PyCallError (List RpcCall) :=
  match dictLookup p.funcs name with
  | some (Slot.invokeSlot m) =>
    if args.isEmpty then Except.ok [RpcCall.execute p.path m []]
    else Except.error PyCallError.typeError
  | some Slot.getattrSlot =>
    if args.length == 1 then Except.ok [RpcCall.getobject p.path false]
    else Except.error PyCallError.typeError
  | none => Except.ok [RpcCall.getobject p.path false]

/-- Membership of a name in the stand-in's method set: the class dict maps it
to the invoke slot for that same name. -/
def proxyMethodSet (p : ClassProxy) (m : String) : Prop :=
  dictLookup p.funcs m = some (Slot.invokeSlot m)

/-- Names in `method_list` never start with an underscore. -/
theorem method_list_no_underscore (t : PyType) (m : String)
    (hm : m ∈ method_list t) : pyStartsWith m "_" = false := by
  unfold method_list at hm
  obtain ⟨a, ha, rfl⟩ := List.mem_map.1 hm
  have := List.of_mem_filter ha
  simp only [Bool.and_eq_true, beq_iff_eq] at this
  exact this.2

/-- Lookup in the mapped association list built from `method_list`. -/
theorem lookup_map_self (l : List String) (k : String) :
    ((l.map (fun m => (m, Slot.invokeSlot m))).find? (fun kv => kv.1 == k)) =
      if k ∈ l then some (k, Slot.invokeSlot k) else none := by
  induction l with
  | nil => simp
  | cons x xs ih =>
    by_cases hx : x = k
    · subst hx
      simp [List.find?]
    · rw [List.map_cons, List.find?]
      have : ((x, Slot.invokeSlot x).1 == k) = false := by
        simp [hx]
      rw [this]
      simp only [List.mem_cons]
      rw [ih]
      by_cases hk : k ∈ xs <;> simp [hk, hx, Ne.symm hx]

/-- Lookup in the generated class dict. -/
theorem dictLookup_buildFuncs (t : PyType) (k : String) :
    dictLookup (buildFuncs t) k =
      if k = "__getattr__" then some Slot.getattrSlot
      else if k ∈ method_list t then some (Slot.invokeSlot k) else none := by
  unfold dictLookup buildFuncs
  by_cases hg : k = "__getattr__"
  · subst hg
    simp [List.find?]
  · rw [List.find?]
    have : (("__getattr__", Slot.getattrSlot).1 == k) = false := by
      simp [Ne.symm hg]
    rw [this, lookup_map_self]
    by_cases hk : k ∈ method_list t <;> simp [hk, hg]

/-! ### Claim C2 -/

/-- C2: `Client.proxy p` performs exactly one remote introspection fetch at
construction time; the stand-in's method set equals the set of public
(non-underscore) callable attributes of the remote type; invoking a method
of that set performs exactly one remote `execute` round-trip; reading an
attribute outside the class dict performs exactly one remote `getobject`
round-trip; and the stand-in's entire state is the path and the class dict
computed from the remote type — nothing is cached between calls, so every
access is a function of the stand-in alone. -/
theorem proxy_contract (path : String) (t : PyType) :
    (Client.proxy path t).1 = [RpcCall.getobject path false] ∧
    (∀ m, proxyMethodSet (Client.proxy path t).2 m ↔ m ∈ method_list t) ∧
    (∀ m, m ∈ method_list t →
      proxyInvoke (Client.proxy path t).2 m [] =
        Except.ok [RpcCall.execute path m []]) ∧
    (∀ a, dictLookup ((Client.proxy path t).2).funcs a = none →
      proxyAttrReadTrace (Client.proxy path t).2 a =
        [RpcCall.getobject path false]) ∧
    (Client.proxy path t).2 = ⟨path, buildFuncs t⟩ := by
  refine ⟨rfl, ?_, ?_, ?_, rfl⟩
  · intro m
    unfold proxyMethodSet
    rw [show (Client.proxy path t).2 = ⟨path, buildFuncs t⟩ from rfl]
    rw [dictLookup_buildFuncs]
    constructor
    · intro h
      by_cases hg : m = "__getattr__"
      · simp [hg] at h
      · simp only [hg, if_false] at h
        by_cases hk : m ∈ method_list t
        · exact hk
        · simp [hk] at h
    · intro hm
      have hg : m ≠ "__getattr__" := by
        intro he
        have := method_list_no_underscore t m hm
        rw [he] at this
        exact absurd this (by decide)
      simp [hg, hm]
  · intro m hm
    have hg : m ≠ "__getattr__" := by
      intro he
      have := method_list_no_underscore t m hm
      rw [he] at this
      exact absurd this (by decide)
    show proxyInvoke ⟨path, buildFuncs t⟩ m [] = _
    unfold proxyInvoke
    simp only [dictLookup_buildFuncs, hg, if_false, hm, if_true, if_pos]
    rfl
  · intro a ha
    unfold proxyAttrReadTrace
    rw [ha]
    rfl

/-- Witness for `proxy_contract`: the contract instantiated on the concrete
remote type of the example's `InventoryItem` (callables `run`, `total_cost`,
a private `_asdict`, a data attribute `name`), path `/inventory/widget1`. -/
theorem proxy_contract_witness :
    proxyMethodSet (Client.proxy "/inventory/widget1"
        ⟨[("run", true), ("total_cost", true), ("_asdict", true), ("name", false)]⟩).2
        "total_cost" ∧
    proxyInvoke (Client.proxy "/inventory/widget1"
        ⟨[("run", true), ("total_cost", true), ("_asdict", true), ("name", false)]⟩).2
        "total_cost" [] =
      Except.ok [RpcCall.execute "/inventory/widget1" "total_cost" []] ∧
    proxyAttrReadTrace (Client.proxy "/inventory/widget1"
        ⟨[("run", true), ("total_cost", true), ("_asdict", true), ("name", false)]⟩).2
        "unit_price" = [RpcCall.getobject "/inventory/widget1" false] := by
  refine ⟨?_, ?_, ?_⟩
  · exact (proxy_contract "/inventory/widget1" _).2.1 "total_cost" |>.2 (by decide)
  · exact (proxy_contract "/inventory/widget1" _).2.2.1 "total_cost" (by decide)
  · exact (proxy_contract "/inventory/widget1" _).2.2.2.1 "unit_price" (by decide)

/-! ### Claim C9 -/

/-- C9: for every stand-in built by `Client.proxy path` and every name `m`
in its method set, invoking `proxy.m()` sends exactly the remote call
`execute(path, m)` with an empty argument list; and every wire call produced
by any invocation of `m` — with any caller-supplied arguments — is that same
argument-free `execute` call, so caller-supplied arguments are never
transmitted (a call with extra arguments raises `TypeError` locally before
reaching the wire). -/
theorem proxy_invoke_no_args (path : String) (t : PyType) (m : String)
    (hm : m ∈ method_list t) :
    proxyInvoke (Client.proxy path t).2 m [] =
      Except.ok [RpcCall.execute path m []] ∧
    (∀ args tr c, proxyInvoke (Client.proxy path t).2 m args = Except.ok tr →
      c ∈ tr → c = RpcCall.execute path m []) := by
  have hg : m ≠ "__getattr__" := by
    intro he
    have := method_list_no_underscore t m hm
    rw [he] at this
    exact absurd this (by decide)
  have hlook : dictLookup ((Client.proxy path t).2).funcs m =
      some (Slot.invokeSlot m) := by
    show dictLookup (buildFuncs t) m = _
    rw [dictLookup_buildFuncs]
    simp [hg, hm]
  constructor
  · unfold proxyInvoke
    rw [hlook]
    rfl
  · intro args tr c htr hc
    unfold proxyInvoke at htr
    rw [hlook] at htr
    by_cases hargs : args.isEmpty
    · simp only [hargs, if_true, if_pos] at htr
      cases htr
      simp only [List.mem_singleton] at hc
      exact hc
    · simp [hargs] at htr

/-- Witness for `proxy_invoke_no_args`: instantiated at the concrete type
and method `run`. -/
theorem proxy_invoke_no_args_witness :
    proxyInvoke (Client.proxy "/inventory/widget1"
        ⟨[("run", true), ("total_cost", true), ("_asdict", true), ("name", false)]⟩).2
        "run" [] =
      Except.ok [RpcCall.execute "/inventory/widget1" "run" []] ∧
    (∀ args tr c,
      proxyInvoke (Client.proxy "/inventory/widget1"
        ⟨[("run", true), ("total_cost", true), ("_asdict", true), ("name", false)]⟩).2
        "run" args = Except.ok tr →
      c ∈ tr → c = RpcCall.execute "/inventory/widget1" "run" []) :=
  proxy_invoke_no_args "/inventory/widget1"
    ⟨[("run", true), ("total_cost", true), ("_asdict", true), ("name", false)]⟩
    "run" (by decide)

/-! ## Client.get (src/emerge/core/client.py:85-99)

`get` receives either one record dict or a list of dill blobs each holding a
record dict.  In the list branch every element is first `dill.loads`-ed;
in both branches a record that has an `"obj"` key gets that field replaced
by `dill.loads` of its value; everything else is passed through. -/

/-- Failure of `dill.loads` on a value that is not a dill blob. -/
inductive DillError where
  | unpicklingError
deriving DecidableEq, Repr

/-- Behaviour of `dill.loads` applied to a record field value: a blob decodes to its
content, any other value raises. -/
def dillLoadsField : FieldVal → Except DillError FieldVal
  | FieldVal.pickled v => Except.ok v
  | _ => Except.error DillError.unpicklingError

/-- A record dict as transported by the node's `get`. -/
abbrev PyRecord := List (String × FieldVal)

/-- A dill blob holding a pickled record dict — the element shape of a list
response; `dill.loads` of the blob yields `payload`. -/
structure RecBlob where
  payload : PyRecord
deriving DecidableEq, Repr

/-- Python `k in d` / `d[k]` on a dict (keys are unique in a Python dict;
first-match lookup realizes the same mapping). -/
def lookupField (r : PyRecord) (k : String) : Option FieldVal :=
  (r.find? (fun kv => kv.1 == k)).map (fun kv => kv.2)

/-- Python `k in d`. -/
def hasField (r : PyRecord) (k : String) : Bool :=
  (r.find? (fun kv => kv.1 == k)).isSome

/-- Python `d[k] = v` for a key already present: the value under `k` is
replaced, every other key keeps its value. -/
def setField (r : PyRecord) (k : String) (v : FieldVal) : PyRecord :=
  r.map (fun kv => if kv.1 == k then (kv.1, v) else kv)

/-- The per-record step of `Client.get` (lines 91-92 and 95-96):
`if "obj" in _f: _f["obj"] = dill.loads(_f["obj"])` — the `in` test succeeds
exactly when the lookup does. -/
def client_get_record (r : PyRecord) : Except DillError PyRecord :=
  match lookupField r "obj" with
  | some v =>
    match dillLoadsField v with
    | Except.ok w => Except.ok (setField r "obj" w)
    | Except.error e => Except.error e
  | none => Except.ok r

/-- The list branch of `Client.get` (lines 88-93): each element is
`dill.loads`-ed into a record, the record's `obj` field decoded, and the
results accumulated in order; a decode failure propagates. -/
def client_get_many : List RecBlob → Except DillError (List PyRecord)
  | [] => Except.ok []
  | b :: bs =>
    match client_get_record b.payload with
    | Except.error e => Except.error e
    | Except.ok r =>
      match client_get_many bs with
      | Except.error e => Except.error e
      | Except.ok rs => Except.ok (r :: rs)

/-- The wire response to `client.get`: a single record dict or a list of
record blobs. -/
inductive GetResponse where
  | single (r : PyRecord)
  | many (blobs : List RecBlob)
deriving DecidableEq, Repr

/-- The value `Client.get` returns. -/
inductive GetResult where
  | single (r : PyRecord)
  | many (rs : List PyRecord)
deriving DecidableEq, Repr

/-- Embedding of `Client.get` (lines 85-99). -/
def Client.get : GetResponse → Except DillError GetResult
  | GetResponse.single r =>
    match client_get_record r with
    | Except.ok rOut => Except.ok (GetResult.single rOut)
    | Except.error e => Except.error e
  | GetResponse.many bs =>
    match client_get_many bs with
    | Except.ok rs => Except.ok (GetResult.many rs)
    | Except.error e => Except.error e

/-- What claim C10 asserts of one processed record: the `obj` field (when
present) is replaced by its decoded content, every other field is unchanged,
and a record without an `obj` key is returned exactly as received. -/
def ObjFieldProcessed (r rOut : PyRecord) : Prop :=
  (∀ k, k ≠ "obj" → lookupField rOut k = lookupField r k) ∧
  (lookupField r "obj" = none → rOut = r) ∧
  (∀ v, lookupField r "obj" = some (FieldVal.pickled v) →
    lookupField rOut "obj" = some v)

/-- The record's `obj` field, when present, is a dill blob (what the node
actually stores there; `dill.loads` of anything else would raise). -/
def objFieldDecodable (r : PyRecord) : Bool :=
  match lookupField r "obj" with
  | some (FieldVal.pickled _) => true
  | some _ => false
  | none => true

/-- Lookup on a cons cell. -/
theorem lookupField_cons (x : String × FieldVal) (l : PyRecord) (k : String) :
    lookupField (x :: l) k = if x.1 == k then some x.2 else lookupField l k := by
  unfold lookupField
  rw [List.find?_cons]
  cases hx : (x.1 == k) <;> simp [hx]

/-- Updating with `setField` does not touch other keys. -/
theorem lookupField_setField_ne (r : PyRecord) (k k' : String) (v : FieldVal)
    (hne : k' ≠ k) : lookupField (setField r k v) k' = lookupField r k' := by
  induction r with
  | nil => rfl
  | cons kv rest ih =>
    cases hk : (kv.1 == k) with
    | false =>
      have h1 : setField (kv :: rest) k v = kv :: setField rest k v := by
        unfold setField
        rw [List.map_cons, if_neg (show ¬((kv.1 == k) = true) by simp [hk])]
      rw [h1, lookupField_cons, lookupField_cons]
      cases hk' : (kv.1 == k') <;> simp [hk', ih]
    | true =>
      have hkk : kv.1 = k := by simpa using hk
      have h1 : setField (kv :: rest) k v = (kv.1, v) :: setField rest k v := by
        unfold setField
        rw [List.map_cons, if_pos hk]
      rw [h1, lookupField_cons, lookupField_cons]
      have hk2 : (kv.1 == k') = false := by simp [hkk, Ne.symm hne]
      simp [hk2, ih]

/-- After `setField r k v` on a key that was present, the key holds `v`. -/
theorem lookupField_setField_self (r : PyRecord) (k : String) (v : FieldVal)
    (h : (lookupField r k).isSome) :
    lookupField (setField r k v) k = some v := by
  induction r with
  | nil => simp [lookupField] at h
  | cons kv rest ih =>
    cases hk : (kv.1 == k) with
    | true =>
      have h1 : setField (kv :: rest) k v = (kv.1, v) :: setField rest k v := by
        unfold setField
        rw [List.map_cons, if_pos hk]
      rw [h1, lookupField_cons]
      simp [hk]
    | false =>
      have h1 : setField (kv :: rest) k v = kv :: setField rest k v := by
        unfold setField
        rw [List.map_cons, if_neg (show ¬((kv.1 == k) = true) by simp [hk])]
      rw [lookupField_cons] at h
      rw [if_neg (show ¬((kv.1 == k) = true) by simp [hk])] at h
      rw [h1, lookupField_cons]
      rw [if_neg (show ¬((kv.1 == k) = true) by simp [hk])]
      exact ih h

/-- One record is processed as claim C10 states. -/
theorem client_get_record_spec (r : PyRecord) (h : objFieldDecodable r = true) :
    ∃ rOut, client_get_record r = Except.ok rOut ∧ ObjFieldProcessed r rOut := by
  unfold objFieldDecodable at h
  unfold client_get_record
  cases hlook : lookupField r "obj" with
  | none =>
    refine ⟨r, rfl, ?_, ?_, ?_⟩
    · intro k _; rfl
    · intro _; rfl
    · intro v hv; rw [hlook] at hv; cases hv
  | some v =>
    rw [hlook] at h
    cases v with
    | pickled w =>
      refine ⟨setField r "obj" w, rfl, ?_, ?_, ?_⟩
      · intro k hk
        exact lookupField_setField_ne r "obj" k w hk
      · intro hnone; rw [hlook] at hnone; cases hnone
      · intro v hv
        rw [hlook] at hv
        cases hv
        exact lookupField_setField_self r "obj" w (by rw [hlook]; rfl)
    | str s => simp at h
    | int n => simp at h

/-- Every record of a list response is processed as claim C10 states. -/
theorem client_get_many_spec (bs : List RecBlob)
    (h : ∀ b ∈ bs, objFieldDecodable b.payload = true) :
    ∃ rs, client_get_many bs = Except.ok rs ∧
      List.Forall₂ ObjFieldProcessed (bs.map RecBlob.payload) rs := by
  induction bs with
  | nil => exact ⟨[], rfl, List.Forall₂.nil⟩
  | cons b rest ih =>
    obtain ⟨rOut, hr, hproc⟩ :=
      client_get_record_spec b.payload (h b (List.mem_cons_self b rest))
    obtain ⟨rs, hrs, hall⟩ := ih (fun x hx => h x (List.mem_cons_of_mem b hx))
    refine ⟨rOut :: rs, ?_, List.Forall₂.cons hproc hall⟩
    unfold client_get_many
    rw [hr, hrs]

/-! ### Claim C10 -/

/-- C10: for every response to `Client.get` — a single record or a list of
records — each returned record with an `"obj"` key has that field replaced
by its dill-decoded object, every other field of every record is returned
unchanged, and a record without an `"obj"` key is returned exactly as
received (for a list response, "as received" is the record contained in the
received dill blob, which the loop decodes first). -/
theorem client_get_decodes_obj_fields (r : PyRecord) (bs : List RecBlob)
    (h1 : objFieldDecodable r = true)
    (h2 : ∀ b ∈ bs, objFieldDecodable b.payload = true) :
    (∃ rOut, Client.get (GetResponse.single r) =
        Except.ok (GetResult.single rOut) ∧ ObjFieldProcessed r rOut) ∧
    (∃ rsOut, Client.get (GetResponse.many bs) =
        Except.ok (GetResult.many rsOut) ∧
      List.Forall₂ ObjFieldProcessed (bs.map RecBlob.payload) rsOut) := by
  constructor
  · obtain ⟨rOut, hr, hproc⟩ := client_get_record_spec r h1
    refine ⟨rOut, ?_, hproc⟩
    simp only [Client.get]
    rw [hr]
  · obtain ⟨rs, hrs, hall⟩ := client_get_many_spec bs h2
    refine ⟨rs, ?_, hall⟩
    simp only [Client.get]
    rw [hrs]

/-- Witness for `client_get_decodes_obj_fields`: a concrete record carrying
an encoded object plus a concrete one-blob list response. -/
theorem client_get_decodes_obj_fields_witness :
    (∃ rOut,
      Client.get (GetResponse.single
        [("id", FieldVal.str "widget1"),
         ("obj", FieldVal.pickled (FieldVal.str "objdata")),
         ("size", FieldVal.int 120)]) =
        Except.ok (GetResult.single rOut) ∧
      ObjFieldProcessed
        [("id", FieldVal.str "widget1"),
         ("obj", FieldVal.pickled (FieldVal.str "objdata")),
         ("size", FieldVal.int 120)] rOut) ∧
    (∃ rsOut,
      Client.get (GetResponse.many [⟨[("name", FieldVal.str "widget")]⟩]) =
        Except.ok (GetResult.many rsOut) ∧
      List.Forall₂ ObjFieldProcessed
        [[("name", FieldVal.str "widget")]] rsOut) :=
  client_get_decodes_obj_fields
    [("id", FieldVal.str "widget1"),
     ("obj", FieldVal.pickled (FieldVal.str "objdata")),
     ("size", FieldVal.int 120)]
    [⟨[("name", FieldVal.str "widget")]⟩]
    (by decide) (by decide)

/-! ## The example's InventoryItem (src/emerge/example/client.py:33-46) -/

/-- The `InventoryItem` dataclass.  Python floats are modelled as rationals;
every numeric value the claims touch (3.0, 10, 30.0) is exactly
representable and `3.0 * 10` incurs no rounding in IEEE double either. -/
structure InventoryItem where
  name : String
  unit_price : ℚ
  id : String
  quantity_on_hand : ℤ := 0
deriving DecidableEq, Repr

/-- Method `total_cost` (lines 45-46): `self.unit_price * self.quantity_on_hand`. -/
def InventoryItem.total_cost (item : InventoryItem) : ℚ :=
  item.unit_price * (item.quantity_on_hand : ℚ)

/-! ## Node model (spec-modelled)

The node server (emerge/node/server.py) is not among the shown sources.  The
Namespace Store and Execution Engine are modelled from the spec (§3
invariants, §4.1, §4.3, §6): a directory set initialized with the root and
the reserved registry directory, an id-keyed object table, `mkdir`/`rm`/
`store` operations, and `execute` resolving an id and invoking the named
method on the decoded object. -/

/-- Modelled from the spec (§4.3): a live object decoded on the node.  The
method table embedded here is the one the claims exercise: `total_cost` of
the example's `InventoryItem` (src/emerge/example/client.py:45-46). -/
inductive LiveObj where
  | inventory (item : InventoryItem)
deriving DecidableEq, Repr

/-- Result value of a remote execution. -/
inductive ExecValue where
  | num (q : ℚ)
  | str (s : String)
deriving DecidableEq, Repr

/-- Modelled from the spec (§7): execution-side error kinds. -/
inductive ExecError where
  | notFound
  | noSuchMethod
deriving DecidableEq, Repr

/-- Modelled from the spec (§4.3): invoke the named method on the decoded
object; an absent method fails with `NoSuchMethod`. -/
def invokeMethod : LiveObj → String → Except ExecError ExecValue
  | LiveObj.inventory item, "total_cost" =>
    Except.ok (ExecValue.num item.total_cost)
  | LiveObj.inventory _, _ => Except.error ExecError.noSuchMethod

/-- Modelled from the spec (§3, §4.1): the node's namespace — directory
paths plus the id-keyed object table. -/
structure NodeState where
  dirs : List String
  objs : List (String × LiveObj)
deriving DecidableEq, Repr

/-- Modelled from the spec (§3 invariants): the initial namespace holds the
root directory and the reserved registry directory. -/
def initNode : NodeState := ⟨["/", "/registry"], []⟩

/-- Modelled from the spec (§4.1 store): insert or overwrite the record
under its id (ids are unique node-wide). -/
def NodeState.store (s : NodeState) (oid : String) (o : LiveObj) : NodeState :=
  ⟨s.dirs, (oid, o) :: s.objs.filter (fun kv => (kv.1 == oid) = false)⟩

/-- Modelled from the spec (§4.3 execute): resolve the id in the object
table and invoke the method; an unknown id fails with `NotFound`. -/
def NodeState.execute (s : NodeState) (oid method : String) :
    Except ExecError ExecValue :=
  match s.objs.find? (fun kv => kv.1 == oid) with
  | some kv => invokeMethod kv.2 method
  | none => Except.error ExecError.notFound

/-- Modelled from the spec (§4.1, §6): one user-level namespace operation. -/
inductive NodeOp where
  | mkdirOp (path : String)
  | rmOp (path : String)
  | storeOp (oid : String) (o : LiveObj)
deriving DecidableEq, Repr

/-- Modelled from the spec (§3 invariants, §4.1, §6): `mkdir` creates an
absolute not-yet-existing directory (and otherwise fails, leaving the state
unchanged); `rm` removes the named object or directory but refuses the root
`/` and the reserved `/registry`, which are not user-removable; `store`
inserts or overwrites an object record. -/
def applyOp (s : NodeState) : NodeOp → NodeState
  | NodeOp.mkdirOp p =>
    if pyStartsWith p "/" && !(s.dirs.contains p) then ⟨s.dirs ++ [p], s.objs⟩
    else s
  | NodeOp.rmOp p =>
    if p == "/" || p == "/registry" then s
    else ⟨s.dirs.filter (fun d => (d == p) = false),
          s.objs.filter (fun kv => (kv.1 == p) = false)⟩
  | NodeOp.storeOp oid o => s.store oid o

/-- The namespace reached from the initial one by a sequence of user
operations. -/
def runOps (ops : List NodeOp) : NodeState :=
  ops.foldl applyOp initNode

/-! ### Claim C4 -/

/-- C4: after storing under id "widget1" an `InventoryItem` payload with
`unit_price = 3.0` and `quantity_on_hand = 10`, `execute("widget1",
"total_cost")` returns 30.0 — and `total_cost` itself is
`unit_price * quantity_on_hand`. -/
theorem execute_widget1_total_cost :
    (initNode.store "widget1"
        (LiveObj.inventory ⟨"widget", 3, "widget1", 10⟩)).execute
        "widget1" "total_cost" = Except.ok (ExecValue.num 30) ∧
    InventoryItem.total_cost ⟨"widget", 3, "widget1", 10⟩ = 3 * 10 := by
  have h30 : InventoryItem.total_cost ⟨"widget", 3, "widget1", 10⟩ = 30 := by
    unfold InventoryItem.total_cost
    norm_num
  have hexec : (initNode.store "widget1"
      (LiveObj.inventory ⟨"widget", 3, "widget1", 10⟩)).execute
      "widget1" "total_cost" =
      Except.ok (ExecValue.num
        (InventoryItem.total_cost ⟨"widget", 3, "widget1", 10⟩)) := rfl
  constructor
  · rw [hexec, h30]
  · rw [h30]
    norm_num

/-! ### Claim C7 -/

/-- Any protected directory already present survives one operation. -/
theorem applyOp_preserves_protected (s : NodeState) (op : NodeOp) (d : String)
    (hd : d = "/" ∨ d = "/registry") (hmem : d ∈ s.dirs) :
    d ∈ (applyOp s op).dirs := by
  cases op with
  | mkdirOp p =>
    unfold applyOp
    by_cases hc : (pyStartsWith p "/" && !(s.dirs.contains p)) = true
    · simp only [hc, if_true, if_pos]
      exact List.mem_append_left _ hmem
    · simp only [hc, if_false]
      simpa using hmem
  | rmOp p =>
    unfold applyOp
    by_cases hc : (p == "/" || p == "/registry") = true
    · simp only [hc, if_true, if_pos]
      exact hmem
    · simp only [hc, if_false]
      refine List.mem_filter.2 ⟨hmem, ?_⟩
      simp only [Bool.or_eq_true, beq_iff_eq] at hc
      push_neg at hc
      rcases hd with h | h <;> simp [h, Ne.symm hc.1, Ne.symm hc.2]
  | storeOp oid o =>
    exact hmem

/-- Protected directories survive any operation sequence from any state
containing them. -/
theorem foldl_preserves_protected (ops : List NodeOp) (s : NodeState)
    (d : String) (hd : d = "/" ∨ d = "/registry") (hmem : d ∈ s.dirs) :
    d ∈ (ops.foldl applyOp s).dirs := by
  induction ops generalizing s with
  | nil => exact hmem
  | cons op rest ih =>
    exact ih (applyOp s op) (applyOp_preserves_protected s op d hd hmem)

/-- C7: after every sequence of mkdir/rm/store operations the root directory
and the reserved `/registry` directory still exist; a user `rm` of either is
a no-op on any state; and the registry's directory entry is never among the
entries the CLI `ls` displays for its parent. -/
theorem root_and_registry_protected (ops : List NodeOp) :
    "/" ∈ (runOps ops).dirs ∧
    "/registry" ∈ (runOps ops).dirs ∧
    (∀ s : NodeState, applyOp s (NodeOp.rmOp "/") = s ∧
      applyOp s (NodeOp.rmOp "/registry") = s) ∧
    (∀ files : List String, "dir:/registry" ∉ lsShownEntries files) := by
  refine ⟨?_, ?_, ?_, ?_⟩
  · exact foldl_preserves_protected ops initNode "/" (Or.inl rfl) (by decide)
  · exact foldl_preserves_protected ops initNode "/registry" (Or.inr rfl)
      (by decide)
  · intro s
    constructor <;> rfl
  · intro files hmem
    have := (List.mem_filter.1 hmem).2
    have hskip : lsSkipsEntry "dir:/registry" = true := by decide
    rw [hskip] at this
    cases this

/-- Witness for `root_and_registry_protected`: the invariant applied to the
concrete sequence mkdir /classes; rm /registry; rm /classes; store widget1. -/
theorem root_and_registry_protected_witness :
    "/" ∈ (runOps [NodeOp.mkdirOp "/classes", NodeOp.rmOp "/registry",
        NodeOp.rmOp "/classes",
        NodeOp.storeOp "widget1"
          (LiveObj.inventory ⟨"widget", 3, "widget1", 10⟩)]).dirs ∧
    "/registry" ∈ (runOps [NodeOp.mkdirOp "/classes", NodeOp.rmOp "/registry",
        NodeOp.rmOp "/classes",
        NodeOp.storeOp "widget1"
          (LiveObj.inventory ⟨"widget", 3, "widget1", 10⟩)]).dirs ∧
    (∀ s : NodeState, applyOp s (NodeOp.rmOp "/") = s ∧
      applyOp s (NodeOp.rmOp "/registry") = s) ∧
    (∀ files : List String, "dir:/registry" ∉ lsShownEntries files) :=
  root_and_registry_protected [NodeOp.mkdirOp "/classes",
    NodeOp.rmOp "/registry", NodeOp.rmOp "/classes",
    NodeOp.storeOp "widget1"
      (LiveObj.inventory ⟨"widget", 3, "widget1", 10⟩)]

/-! ### Claim C6 -/

/-- Modelled from the spec (§7): the node's "absent target" result payload —
a dict of shape {error, message} carrying the error kind and a
human-readable message. -/
def absentPayload (kind msg : String) : PyRecord :=
  [("error", FieldVal.str kind), ("message", FieldVal.str msg)]

/-- Modelled from the spec (§3 ObjectRecord, §6): the keys a valid record
returned by `get` can carry — the ObjectRecord fields plus the display
metadata the CLI `ls` reads.  "error" is not among them. -/
def recordKeys : List String :=
  ["id", "path", "name", "perms", "size", "date", "type", "source", "obj"]

/-- A valid (non-error) record: every key is a record key. -/
def ValidRecord (r : PyRecord) : Prop :=
  ∀ kv ∈ r, kv.1 ∈ recordKeys

/-- What the CLI `ls` does with one `client.get` result. -/
inductive LsGetStep where
  /-- Branch `click.echo(file["message"]); return` — the error branch. -/
  | echoedMessage (msg : Option FieldVal)
  /-- fall through and read the record's display fields. -/
  | readRecord (r : PyRecord)
deriving DecidableEq, Repr

/-- Embedding of `ls` lines 216-219: `if "error" in file:
click.echo(file["message"]); return`, else read the record's fields. -/
def lsHandleGet (r : PyRecord) : LsGetStep :=
  if hasField r "error" then LsGetStep.echoedMessage (lookupField r "message")
  else LsGetStep.readRecord r

/-- C6: an absent-target result payload is a {error, message} value with a
non-empty message, and the test for the "error" key — the one the CLI `ls`
performs before reading record fields — distinguishes it from every valid
record: the payload takes the echo branch, a valid record never does. -/
theorem absent_payload_distinguishable (kind msg : String) (hmsg : msg ≠ "") :
    hasField (absentPayload kind msg) "error" = true ∧
    (∃ m, lookupField (absentPayload kind msg) "message" =
        some (FieldVal.str m) ∧ m ≠ "") ∧
    lsHandleGet (absentPayload kind msg) =
      LsGetStep.echoedMessage (some (FieldVal.str msg)) ∧
    (∀ r, ValidRecord r →
      hasField r "error" = false ∧ lsHandleGet r = LsGetStep.readRecord r) := by
  refine ⟨rfl, ⟨msg, rfl, hmsg⟩, rfl, ?_⟩
  intro r hr
  have herr : hasField r "error" = false := by
    unfold hasField
    cases hfind : r.find? (fun kv => kv.1 == "error") with
    | none => rfl
    | some kv =>
      have hkmem := List.mem_of_find?_eq_some hfind
      have hkey := List.find?_some hfind
      simp only [beq_iff_eq] at hkey
      have := hr kv hkmem
      rw [hkey] at this
      exact absurd this (by decide)
  constructor
  · exact herr
  · unfold lsHandleGet
    rw [herr]
    rfl

/-- Witness for `absent_payload_distinguishable`: the concrete NotFound
payload for a missing path, and (inside the applied theorem) the valid
records it is distinguished from. -/
theorem absent_payload_distinguishable_witness :
    hasField (absentPayload "NotFound" "no such path: /nonexistent")
      "error" = true ∧
    (∃ m, lookupField (absentPayload "NotFound" "no such path: /nonexistent")
        "message" = some (FieldVal.str m) ∧ m ≠ "") ∧
    lsHandleGet (absentPayload "NotFound" "no such path: /nonexistent") =
      LsGetStep.echoedMessage
        (some (FieldVal.str "no such path: /nonexistent")) ∧
    (∀ r, ValidRecord r →
      hasField r "error" = false ∧ lsHandleGet r = LsGetStep.readRecord r) :=
  absent_payload_distinguishable "NotFound" "no such path: /nonexistent"
    (by decide)

/-! ## The dill envelope codec (claim C1)

`Client.store` serializes an application object with `dill.dumps(obj)` (plus
the source text of its type), and `Client.getobject` rebuilds it with
`dill.loads`.  dill is an external library; its object-graph serialization
is modelled from the spec (§4.2): an in-memory object graph is a heap of
objects whose fields hold primitives or references; `dumps` walks the graph
from the root, assigning each object a memo index the first time it is
visited so that an object referenced more than once is emitted exactly once;
`loads` materializes the memo table as fresh objects, shared references
becoming references to one shared fresh object.  In a live Python heap every
reference points at an existing object, which is the well-formedness
assumption `wfb`. -/

namespace Dill

/-- A Python field value: a primitive or a reference to a heap object. -/
inductive PVal where
  | int (n : Int)
  | str (s : String)
  | ref (a : Nat)
deriving DecidableEq, Repr

/-- A Python object: its class name and its named fields. -/
structure PObj where
  cls : String
  fields : List (String × PVal)
deriving DecidableEq, Repr

/-- A heap of live objects; the address of an object is its index. -/
abbrev Heap := List PObj

/-- The addresses an object refers to through its fields. -/
def PObj.refs (o : PObj) : List Nat :=
  o.fields.filterMap (fun kv =>
    match kv.2 with
    | PVal.ref a => some a
    | _ => none)

/-- The successor addresses of address `a` in heap `h`. -/
def succs (h : Heap) (a : Nat) : List Nat :=
  match h[a]? with
  | some o => o.refs
  | none => []

/-- Well-formedness of a live heap: every reference points at an existing
object (always true of a Python heap). -/
def wfb (h : Heap) : Bool :=
  h.all (fun o => o.refs.all (fun a => a < h.length))

/-- Append to `s` the members of `bs` not already present, in order,
without duplicating. -/
def addNew (s bs : List Nat) : List Nat :=
  bs.foldl (fun acc b => if b ∈ acc then acc else acc ++ [b]) s

/-- One step of the reachability traversal: add every successor of every
visited address. -/
def expand (h : Heap) (s : List Nat) : List Nat :=
  addNew s (s.flatMap (succs h))

/-- The addresses `dumps` visits: the traversal from the root iterated to
its fixpoint (at most `h.length` rounds are needed), listed in first-visit
order — the pickle memo order. -/
def reachList (h : Heap) (root : Nat) : List Nat :=
  (expand h)^[h.length] [root]

/-- Index of the first occurrence of an address in a list (the memo
numbering). -/
def idxOf (a : Nat) : List Nat → Nat
  | [] => 0
  | b :: l => if b = a then 0 else idxOf a l + 1

/-- The memo index assigned to address `a`: its position in first-visit
order. -/
def memoIdx (h : Heap) (root : Nat) (a : Nat) : Nat :=
  idxOf a (reachList h root)

/-- Rename the address in a reference field value. -/
def renameVal (m : Nat → Nat) : PVal → PVal
  | PVal.ref a => PVal.ref (m a)
  | v => v

/-- Rename every reference of an object. -/
def renameObj (m : Nat → Nat) (o : PObj) : PObj :=
  ⟨o.cls, o.fields.map (fun kv => (kv.1, renameVal m kv.2))⟩

/-- The object emitted into the envelope for a visited address: the heap
object with its references renumbered to memo indices. -/
def defaultObj : PObj := ⟨"", []⟩

/-- The envelope entry for address `a`. -/
def envelopeObj (h : Heap) (m : Nat → Nat) (a : Nat) : PObj :=
  match h[a]? with
  | some o => renameObj m o
  | none => defaultObj

/-- Encoding `dill.dumps` on an object graph: the memo table (each reachable object
once, in first-visit order, references renumbered to memo indices) together
with the root's memo index. -/
def dumps (h : Heap) (root : Nat) : Heap × Nat :=
  ((reachList h root).map (envelopeObj h (memoIdx h root)),
   memoIdx h root root)

/-- Decoding `dill.loads` of an envelope: materialize the memo table as a fresh heap
of live objects — memo index `i` becomes the fresh address `i`, so a
sub-object referenced more than once in the envelope becomes one shared
fresh object. -/
def loads (env : Heap × Nat) : Heap × Nat :=
  env

/-- Field access on an object. -/
def getField (o : PObj) (f : String) : Option PVal :=
  (o.fields.find? (fun kv => kv.1 == f)).map (fun kv => kv.2)

/-- Follow a path of field names from an address through reference fields. -/
def resolveAddr (h : Heap) : Nat → List String → Option Nat
  | a, [] => some a
  | a, f :: p =>
    match h[a]? with
    | none => none
    | some o =>
      match getField o f with
      | some (PVal.ref b) => resolveAddr h b p
      | _ => none

/-- The object at path `p` from the root. -/
def objAt (h : Heap) (root : Nat) (p : List String) : Option PObj :=
  (resolveAddr h root p).bind (fun a => h[a]?)

/-- The primitive value of field `f` of an object (`none` when the field is
absent or holds a reference). -/
def fieldPrim (o : PObj) (f : String) : Option PVal :=
  match getField o f with
  | some (PVal.ref _) => none
  | some v => some v
  | none => none

/-- The primitive value of field `f` of the object at path `p` from the
root (`none` if the path does not resolve or the field is absent or holds
a reference). -/
def primAt (h : Heap) (root : Nat) (p : List String) (f : String) :
    Option PVal :=
  (objAt h root p).bind (fun o => fieldPrim o f)

/-- The class name of the object at path `p` from the root. -/
def clsAt (h : Heap) (root : Nat) (p : List String) : Option String :=
  (objAt h root p).map PObj.cls

/-- Unfolding one step of `addNew`. -/
theorem addNew_cons (s : List Nat) (b : Nat) (bs : List Nat) :
    addNew s (b :: bs) = addNew (if b ∈ s then s else s ++ [b]) bs := by
  unfold addNew
  rw [List.foldl_cons]

/-- The function `addNew` only appends. -/
theorem addNew_eq_append (bs : List Nat) :
    ∀ s : List Nat, ∃ t, addNew s bs = s ++ t := by
  induction bs with
  | nil => intro s; exact ⟨[], (List.append_nil s).symm⟩
  | cons b bs ih =>
    intro s
    rw [addNew_cons]
    by_cases hb : b ∈ s
    · rw [if_pos hb]
      exact ih s
    · rw [if_neg hb]
      obtain ⟨t, ht⟩ := ih (s ++ [b])
      exact ⟨b :: t, by rw [ht, List.append_assoc]; rfl⟩

/-- Members of `s` stay in `addNew s bs`. -/
theorem mem_addNew_left {x : Nat} (bs s : List Nat) (hx : x ∈ s) :
    x ∈ addNew s bs := by
  obtain ⟨t, ht⟩ := addNew_eq_append bs s
  rw [ht]
  exact List.mem_append_left t hx

/-- Members of `bs` end up in `addNew s bs`. -/
theorem mem_addNew_right {x : Nat} (bs : List Nat) :
    ∀ s, x ∈ bs → x ∈ addNew s bs := by
  induction bs with
  | nil => intro s h; cases h
  | cons b bs ih =>
    intro s hx
    rw [addNew_cons]
    rcases List.mem_cons.1 hx with rfl | hmem
    · by_cases hb : x ∈ s
      · rw [if_pos hb]
        exact mem_addNew_left bs s hb
      · rw [if_neg hb]
        exact mem_addNew_left bs _ (List.mem_append_right s (by simp))
    · exact ih _ hmem

/-- Every member of `addNew s bs` came from `s` or from `bs`. -/
theorem mem_addNew_or {x : Nat} (bs : List Nat) :
    ∀ s, x ∈ addNew s bs → x ∈ s ∨ x ∈ bs := by
  induction bs with
  | nil => intro s h; exact Or.inl h
  | cons b bs ih =>
    intro s hx
    rw [addNew_cons] at hx
    rcases ih _ hx with hmem | hmem
    · by_cases hb : b ∈ s
      · rw [if_pos hb] at hmem
        exact Or.inl hmem
      · rw [if_neg hb] at hmem
        rcases List.mem_append.1 hmem with h1 | h1
        · exact Or.inl h1
        · simp at h1
          subst h1
          exact Or.inr (List.mem_cons_self _ _)
    · exact Or.inr (List.mem_cons_of_mem _ hmem)

/-- The function `addNew` preserves freedom from duplicates. -/
theorem addNew_nodup (bs : List Nat) :
    ∀ s : List Nat, s.Nodup → (addNew s bs).Nodup := by
  induction bs with
  | nil => intro s h; exact h
  | cons b bs ih =>
    intro s hs
    rw [addNew_cons]
    by_cases hb : b ∈ s
    · rw [if_pos hb]
      exact ih s hs
    · rw [if_neg hb]
      refine ih _ (List.nodup_append.2 ⟨hs, List.nodup_singleton b, ?_⟩)
      intro x hx hxb
      simp at hxb
      subst hxb
      exact hb hx

/-- The function `addNew` is the identity when nothing is new. -/
theorem addNew_eq_self_of (bs : List Nat) :
    ∀ s : List Nat, (∀ b ∈ bs, b ∈ s) → addNew s bs = s := by
  induction bs with
  | nil => intro s _; rfl
  | cons b bs ih =>
    intro s h
    rw [addNew_cons, if_pos (h b (List.mem_cons_self b bs))]
    exact ih s (fun x hx => h x (List.mem_cons_of_mem b hx))

/-- A proper `addNew` step strictly grows the list. -/
theorem length_lt_of_addNew_ne (s bs : List Nat) (h : addNew s bs ≠ s) :
    s.length < (addNew s bs).length := by
  obtain ⟨t, ht⟩ := addNew_eq_append bs s
  cases t with
  | nil => exact absurd (by rw [ht, List.append_nil]) h
  | cons x t =>
    rw [ht, List.length_append]
    simp

/-- A proper `expand` step strictly grows the visited list. -/
theorem length_lt_of_expand_ne (h : Heap) (s : List Nat)
    (hne : expand h s ≠ s) : s.length < (expand h s).length := by
  unfold expand at hne ⊢
  exact length_lt_of_addNew_ne s _ hne

/-- Unpacking the Boolean well-formedness check. -/
theorem wfb_spec (h : Heap) (hw : wfb h = true) :
    ∀ o ∈ h, ∀ a ∈ o.refs, a < h.length := by
  intro o ho a ha
  unfold wfb at hw
  rw [List.all_eq_true] at hw
  have h1 := hw o ho
  rw [List.all_eq_true] at h1
  have h2 := h1 a ha
  simpa using h2

/-- In a well-formed heap every successor address is a valid address. -/
theorem succs_lt (h : Heap) (hw : wfb h = true) (a b : Nat)
    (hb : b ∈ succs h a) : b < h.length := by
  unfold succs at hb
  cases hget : h[a]? with
  | none => rw [hget] at hb; cases hb
  | some o =>
    rw [hget] at hb
    exact wfb_spec h hw o (List.getElem?_mem hget) b hb

/-- The function `expand` keeps what was visited. -/
theorem mem_expand_left (h : Heap) (s : List Nat) {x : Nat} (hx : x ∈ s) :
    x ∈ expand h s :=
  mem_addNew_left _ s hx

/-- Members of `expand h s` are old members or successors of old members. -/
theorem mem_expand_or (h : Heap) (s : List Nat) {x : Nat}
    (hx : x ∈ expand h s) : x ∈ s ∨ ∃ a ∈ s, x ∈ succs h a := by
  rcases mem_addNew_or _ s hx with h1 | h1
  · exact Or.inl h1
  · exact Or.inr (List.mem_flatMap.1 h1)

/-- The function `expand` preserves freedom from duplicates. -/
theorem expand_nodup (h : Heap) (s : List Nat) (hs : s.Nodup) :
    (expand h s).Nodup :=
  addNew_nodup _ s hs

/-- A fixpoint of `expand` is closed under successors. -/
theorem expand_closed (h : Heap) (s : List Nat) (hfix : expand h s = s)
    {a b : Nat} (ha : a ∈ s) (hb : b ∈ succs h a) : b ∈ s := by
  have h1 : b ∈ s.flatMap (succs h) := List.mem_flatMap.2 ⟨a, ha, hb⟩
  have h2 := mem_addNew_right (s.flatMap (succs h)) s h1
  rw [show addNew s (s.flatMap (succs h)) = expand h s from rfl, hfix] at h2
  exact h2

/-- The function `expand` preserves address validity. -/
theorem expand_bounded (h : Heap) (hw : wfb h = true) (s : List Nat)
    (hs : ∀ x ∈ s, x < h.length) : ∀ x ∈ expand h s, x < h.length := by
  intro x hx
  rcases mem_expand_or h s hx with h1 | ⟨a, _, h2⟩
  · exact hs x h1
  · exact succs_lt h hw a x h2

/-- The iterated traversal never duplicates a visit. -/
theorem iter_nodup (h : Heap) (root : Nat) (k : Nat) :
    ((expand h)^[k] [root]).Nodup := by
  induction k with
  | zero => simp
  | succ k ih =>
    rw [Function.iterate_succ_apply']
    exact expand_nodup h _ ih

/-- The iterated traversal only visits valid addresses. -/
theorem iter_bounded (h : Heap) (hw : wfb h = true) (root : Nat)
    (hroot : root < h.length) (k : Nat) :
    ∀ x ∈ (expand h)^[k] [root], x < h.length := by
  induction k with
  | zero =>
    intro x hx
    simp at hx
    omega
  | succ k ih =>
    rw [Function.iterate_succ_apply']
    exact expand_bounded h hw _ ih

/-- The root is always visited. -/
theorem root_mem_iter (h : Heap) (root : Nat) (k : Nat) :
    root ∈ (expand h)^[k] [root] := by
  induction k with
  | zero => simp
  | succ k ih =>
    rw [Function.iterate_succ_apply']
    exact mem_expand_left h _ ih

/-- A duplicate-free list of addresses below `n` has at most `n` members. -/
theorem length_le_of_nodup_bounded (l : List Nat) (n : Nat) (hn : l.Nodup)
    (hb : ∀ x ∈ l, x < n) : l.length ≤ n := by
  have hsub : l.toFinset ⊆ Finset.range n := by
    intro x hx
    rw [List.mem_toFinset] at hx
    exact Finset.mem_range.2 (hb x hx)
  have hcard := Finset.card_le_card hsub
  rw [List.toFinset_card_of_nodup hn, Finset.card_range] at hcard
  exact hcard

/-- Iterating from a fixpoint stays there. -/
theorem iterate_fixed_list (f : List Nat → List Nat) (s : List Nat)
    (hs : f s = s) : ∀ j, f^[j] s = s := by
  intro j
  induction j with
  | zero => rfl
  | succ j ih => rw [Function.iterate_succ_apply, hs, ih]

/-- After `h.length` rounds the traversal has reached its fixpoint: a
strictly growing duplicate-free list of addresses below `h.length` cannot
grow `h.length + 1` times. -/
theorem reachList_fix (h : Heap) (root : Nat) (hw : wfb h = true)
    (hroot : root < h.length) :
    expand h (reachList h root) = reachList h root := by
  by_contra hne
  have hstep : ∀ k, k ≤ h.length →
      expand h ((expand h)^[k] [root]) ≠ (expand h)^[k] [root] := by
    intro k hk hfix
    apply hne
    have heq : reachList h root = (expand h)^[k] [root] := by
      unfold reachList
      have hnk : h.length = (h.length - k) + k := by omega
      rw [hnk, Function.iterate_add_apply,
        iterate_fixed_list (expand h) _ hfix]
    rw [heq]
    exact hfix
  have hlen : ∀ k, k ≤ h.length → k + 1 ≤ ((expand h)^[k] [root]).length := by
    intro k
    induction k with
    | zero => intro _; simp
    | succ k ih =>
      intro hk
      have h1 := ih (by omega)
      have h2 := hstep k (by omega)
      have h3 := length_lt_of_expand_ne h _ h2
      rw [Function.iterate_succ_apply']
      omega
  have hb := hlen h.length (le_refl _)
  have hbound := length_le_of_nodup_bounded ((expand h)^[h.length] [root])
    h.length (iter_nodup h root h.length) (iter_bounded h hw root hroot h.length)
  unfold reachList at *
  omega

/-- The root is reachable. -/
theorem root_mem_reach (h : Heap) (root : Nat) : root ∈ reachList h root :=
  root_mem_iter h root h.length

/-- Reachable addresses are valid. -/
theorem reach_lt (h : Heap) (hw : wfb h = true) (root : Nat)
    (hroot : root < h.length) {a : Nat} (ha : a ∈ reachList h root) :
    a < h.length :=
  iter_bounded h hw root hroot h.length a ha

/-- The reachable set is closed under successors. -/
theorem reach_closed (h : Heap) (root : Nat) (hw : wfb h = true)
    (hroot : root < h.length) {a b : Nat} (ha : a ∈ reachList h root)
    (hb : b ∈ succs h a) : b ∈ reachList h root :=
  expand_closed h _ (reachList_fix h root hw hroot) ha hb

/-- The element at the first-occurrence index is the element. -/
theorem getElem?_idxOf (l : List Nat) (a : Nat) (ha : a ∈ l) :
    l[idxOf a l]? = some a := by
  induction l with
  | nil => cases ha
  | cons b l ih =>
    unfold idxOf
    by_cases hb : b = a
    · rw [if_pos hb, hb]
      simp
    · rw [if_neg hb]
      rcases List.mem_cons.1 ha with rfl | hmem
      · exact absurd rfl hb
      · rw [List.getElem?_cons_succ]
        exact ih hmem

/-- First-occurrence indexing is injective on members. -/
theorem idxOf_inj (l : List Nat) (a b : Nat) (ha : a ∈ l) (hb : b ∈ l)
    (heq : idxOf a l = idxOf b l) : a = b := by
  have h1 := getElem?_idxOf l a ha
  have h2 := getElem?_idxOf l b hb
  rw [heq, h2] at h1
  exact (Option.some.inj h1).symm

/-- The envelope's memo table holds, at each visited address's memo index,
that object with its references renumbered. -/
theorem memo_get (h : Heap) (root : Nat) {a : Nat}
    (ha : a ∈ reachList h root) :
    ((dumps h root).1)[memoIdx h root a]? =
      some (envelopeObj h (memoIdx h root) a) := by
  show ((reachList h root).map
      (envelopeObj h (memoIdx h root)))[idxOf a (reachList h root)]? = _
  rw [List.getElem?_map, getElem?_idxOf _ a ha]
  rfl

/-- Memo indices identify reachable addresses uniquely. -/
theorem memoIdx_inj (h : Heap) (root : Nat) {a b : Nat}
    (ha : a ∈ reachList h root) (hb : b ∈ reachList h root)
    (heq : memoIdx h root a = memoIdx h root b) : a = b :=
  idxOf_inj (reachList h root) a b ha hb heq

/-- Field lookup commutes with reference renaming. -/
theorem getField_renameObj (m : Nat → Nat) (o : PObj) (f : String) :
    getField (renameObj m o) f = (getField o f).map (renameVal m) := by
  unfold getField renameObj
  simp only [List.find?_map]
  have hpred : ((fun kv : String × PVal => kv.1 == f) ∘
      (fun kv : String × PVal => (kv.1, renameVal m kv.2))) =
      (fun kv : String × PVal => kv.1 == f) := by
    funext kv
    rfl
  rw [hpred]
  cases o.fields.find? (fun kv : String × PVal => kv.1 == f) <;> rfl

/-- A reference read through a field is one of the object's successor
addresses. -/
theorem getField_mem_refs (o : PObj) (f : String) (b : Nat)
    (hf : getField o f = some (PVal.ref b)) : b ∈ o.refs := by
  unfold getField at hf
  cases hfind : o.fields.find? (fun kv => kv.1 == f) with
  | none => rw [hfind] at hf; exact Option.noConfusion hf
  | some kv =>
    rw [hfind] at hf
    have hkv2 : kv.2 = PVal.ref b := by
      simpa using hf
    unfold PObj.refs
    exact List.mem_filterMap.2
      ⟨kv, List.mem_of_find?_eq_some hfind, by rw [hkv2]⟩

/-- One unfolding step of `resolveAddr` at a resolved address. -/
theorem resolveAddr_step (g : Heap) (x : Nat) (o : PObj) (f : String)
    (p : List String) (hg : g[x]? = some o) :
    resolveAddr g x (f :: p) =
      match getField o f with
      | some (PVal.ref b) => resolveAddr g b p
      | _ => none := by
  conv_lhs => unfold resolveAddr
  rw [hg]

/-- Path resolution stays inside the reachable set. -/
theorem resolve_reaches (h : Heap) (root : Nat) (hw : wfb h = true)
    (hroot : root < h.length) :
    ∀ (p : List String) (a c : Nat), a ∈ reachList h root →
      resolveAddr h a p = some c → c ∈ reachList h root := by
  intro p
  induction p with
  | nil =>
    intro a c ha hr
    unfold resolveAddr at hr
    exact (Option.some.inj hr) ▸ ha
  | cons f p ih =>
    intro a c ha hr
    cases hget : h[a]? with
    | none =>
      unfold resolveAddr at hr
      rw [hget] at hr
      exact Option.noConfusion hr
    | some o =>
      rw [resolveAddr_step h a o f p hget] at hr
      cases hfield : getField o f with
      | none => rw [hfield] at hr; exact Option.noConfusion hr
      | some v =>
        rw [hfield] at hr
        cases v with
        | ref b =>
          have hb : b ∈ succs h a := by
            unfold succs
            rw [hget]
            exact getField_mem_refs o f b hfield
          exact ih b c (reach_closed h root hw hroot ha hb) hr
        | int n => exact Option.noConfusion hr
        | str s => exact Option.noConfusion hr

/-- The simulation: resolving a path in the decoded envelope from the memo
index of a reachable address gives exactly the memo index of what the same
path resolves to in the original heap. -/
theorem resolve_sim (h : Heap) (root : Nat) (hw : wfb h = true)
    (hroot : root < h.length) :
    ∀ (p : List String) (a : Nat), a ∈ reachList h root →
      resolveAddr (dumps h root).1 (memoIdx h root a) p =
        (resolveAddr h a p).map (memoIdx h root) := by
  intro p
  induction p with
  | nil => intro a ha; rfl
  | cons f p ih =>
    intro a ha
    have hlt := reach_lt h hw root hroot ha
    cases hget : h[a]? with
    | none =>
      rw [List.getElem?_eq_getElem hlt] at hget
      exact Option.noConfusion hget
    | some o =>
      have hm := memo_get h root ha
      have henv : envelopeObj h (memoIdx h root) a =
          renameObj (memoIdx h root) o := by
        unfold envelopeObj
        rw [hget]
      rw [resolveAddr_step (dumps h root).1 (memoIdx h root a)
        (renameObj (memoIdx h root) o) f p (by rw [hm, henv])]
      rw [resolveAddr_step h a o f p hget]
      rw [getField_renameObj]
      cases hfield : getField o f with
      | none => rfl
      | some v =>
        cases v with
        | ref b =>
          have hb : b ∈ succs h a := by
            unfold succs
            rw [hget]
            exact getField_mem_refs o f b hfield
          exact ih b (reach_closed h root hw hroot ha hb)
        | int n => rfl
        | str s => rfl

/-- The object found along a path in the decoded envelope is the original
object with renumbered references. -/
theorem objAt_sim (h : Heap) (root : Nat) (hw : wfb h = true)
    (hroot : root < h.length) (p : List String) :
    objAt (dumps h root).1 (dumps h root).2 p =
      (objAt h root p).map (renameObj (memoIdx h root)) := by
  unfold objAt
  have hsim := resolve_sim h root hw hroot p root (root_mem_reach h root)
  rw [show (dumps h root).2 = memoIdx h root root from rfl, hsim]
  cases hres : resolveAddr h root p with
  | none => rfl
  | some a =>
    have hA : a ∈ reachList h root :=
      resolve_reaches h root hw hroot p root a (root_mem_reach h root) hres
    have hlt := reach_lt h hw root hroot hA
    show ((dumps h root).1)[memoIdx h root a]? =
      (h[a]?).map (renameObj (memoIdx h root))
    cases hget : h[a]? with
    | none =>
      rw [List.getElem?_eq_getElem hlt] at hget
      exact Option.noConfusion hget
    | some o =>
      rw [memo_get h root hA]
      unfold envelopeObj
      rw [hget]
      rfl

/-- Renaming references does not change a primitive field read. -/
theorem fieldPrim_rename (m : Nat → Nat) (o : PObj) (f : String) :
    fieldPrim (renameObj m o) f = fieldPrim o f := by
  unfold fieldPrim
  rw [getField_renameObj]
  cases getField o f with
  | none => rfl
  | some v => cases v <;> rfl

/-- Primitive field reads are preserved by the round trip. -/
theorem primAt_sim (h : Heap) (root : Nat) (hw : wfb h = true)
    (hroot : root < h.length) (p : List String) (f : String) :
    primAt (dumps h root).1 (dumps h root).2 p f = primAt h root p f := by
  unfold primAt
  rw [objAt_sim h root hw hroot p]
  cases ho : objAt h root p with
  | none => rfl
  | some o =>
    show fieldPrim (renameObj (memoIdx h root) o) f = fieldPrim o f
    exact fieldPrim_rename (memoIdx h root) o f

/-- Class names are preserved by the round trip. -/
theorem clsAt_sim (h : Heap) (root : Nat) (hw : wfb h = true)
    (hroot : root < h.length) (p : List String) :
    clsAt (dumps h root).1 (dumps h root).2 p = clsAt h root p := by
  unfold clsAt
  rw [objAt_sim h root hw hroot p]
  cases ho : objAt h root p with
  | none => rfl
  | some o => rfl

/-- Two paths share a decoded sub-object exactly when they shared the
original sub-object. -/
theorem resolve_shared_iff (h : Heap) (root : Nat) (hw : wfb h = true)
    (hroot : root < h.length) (p q : List String) :
    (resolveAddr (dumps h root).1 (dumps h root).2 p =
      resolveAddr (dumps h root).1 (dumps h root).2 q) ↔
    resolveAddr h root p = resolveAddr h root q := by
  have hp := resolve_sim h root hw hroot p root (root_mem_reach h root)
  have hq := resolve_sim h root hw hroot q root (root_mem_reach h root)
  have hroot2 : (dumps h root).2 = memoIdx h root root := rfl
  constructor
  · intro he
    rw [hroot2, hp, hq] at he
    cases hrp : resolveAddr h root p with
    | none =>
      cases hrq : resolveAddr h root q with
      | none => rfl
      | some b => rw [hrp, hrq] at he; exact Option.noConfusion he
    | some a =>
      cases hrq : resolveAddr h root q with
      | none => rw [hrp, hrq] at he; exact Option.noConfusion he
      | some b =>
        rw [hrp, hrq] at he
        have hA := resolve_reaches h root hw hroot p root a
          (root_mem_reach h root) hrp
        have hB := resolve_reaches h root hw hroot q root b
          (root_mem_reach h root) hrq
        exact congrArg some (memoIdx_inj h root hA hB (Option.some.inj he))
  · intro he
    rw [hroot2, hp, hq, he]

/-! ### Claim C1 -/

/-- C1: decoding the envelope produced by encoding the object graph rooted
at `root` yields an attribute-equal object: every primitive field reached
through any chain of nested sub-objects, and every (type-descriptor) class
name, reads the same after `loads (dumps ...)`; and two field paths resolve
to the same sub-object after decoding exactly when they resolved to the
same sub-object before, so a sub-object referenced more than once within
one envelope decodes to a single shared object — neither duplicated nor
detached. -/
theorem dill_roundtrip (h : Heap) (root : Nat) (hw : wfb h = true)
    (hroot : root < h.length) :
    (∀ p f, primAt (loads (dumps h root)).1 (loads (dumps h root)).2 p f =
      primAt h root p f) ∧
    (∀ p, clsAt (loads (dumps h root)).1 (loads (dumps h root)).2 p =
      clsAt h root p) ∧
    (∀ p q, (resolveAddr (loads (dumps h root)).1 (loads (dumps h root)).2 p =
        resolveAddr (loads (dumps h root)).1 (loads (dumps h root)).2 q) ↔
      resolveAddr h root p = resolveAddr h root q) := by
  refine ⟨?_, ?_, ?_⟩
  · intro p f
    exact primAt_sim h root hw hroot p f
  · intro p
    exact clsAt_sim h root hw hroot p
  · intro p q
    exact resolve_shared_iff h root hw hroot p q

/-- A concrete two-object graph: the root references the same sub-object
through two different fields. -/
def exHeap : Heap :=
  [⟨"Order", [("a", PVal.ref 1), ("b", PVal.ref 1), ("n", PVal.int 5)]⟩,
   ⟨"Item", [("price", PVal.int 3)]⟩]

/-- Witness for `dill_roundtrip`: the round trip applied to the concrete
graph with a shared sub-object. -/
theorem dill_roundtrip_witness :
    wfb exHeap = true ∧ 0 < exHeap.length ∧
    ((∀ p f, primAt (loads (dumps exHeap 0)).1 (loads (dumps exHeap 0)).2 p f =
        primAt exHeap 0 p f) ∧
     (∀ p, clsAt (loads (dumps exHeap 0)).1 (loads (dumps exHeap 0)).2 p =
        clsAt exHeap 0 p) ∧
     (∀ p q,
       (resolveAddr (loads (dumps exHeap 0)).1 (loads (dumps exHeap 0)).2 p =
         resolveAddr (loads (dumps exHeap 0)).1 (loads (dumps exHeap 0)).2 q) ↔
       resolveAddr exHeap 0 p = resolveAddr exHeap 0 q)) :=
  ⟨by decide, by decide, dill_roundtrip exHeap 0 (by decide) (by decide)⟩

end Dill

end Emerge
